import Mathlib

/-!
Shallow embedding of the `rusty-matching-engine` repository
(`src/main.rs` and `src/orders.rs`).

Machine integers: Rust `i32` fields are modelled as `Int` (the programs under
verification never reach the two wrap-around corners, `i32::MIN * -1` in the
comparator and out-of-range parses, except where the parser model checks the
`i32` range explicitly); `u128` nanosecond timestamps are modelled as `Nat`.

`std::collections::BinaryHeap` is modelled by its backing vector (a
`List Order`) together with the standard library's `sift_up`,
`sift_down_range` and `sift_down_to_bottom` algorithms, written with an
explicit fuel argument so that they are structurally recursive and compute
by `decide`/`rfl`.  The fuel passed at every call site is a strict upper
bound on the number of loop iterations (`sift_up` moves the hole index
strictly down towards 0, the two `sift_down`s move it strictly up towards
`en`), so the fuel-exhaustion branches are never taken and the functions
agree with the Rust loops on all inputs.

`SystemTime::now()` (read once per fill to stamp the `Trade`) is modelled by
an explicit `clock : Nat → Nat` input giving the nanosecond reading at the
k-th fill of the call.
-/

/-- `enum Side` (identical in `main.rs` and `orders.rs`). -/
inductive Side where
  | Bid : Side
  | Ask : Side
deriving DecidableEq, Repr, Inhabited

/-- `struct Trade` (identical in `main.rs` and `orders.rs`). -/
structure Trade where
  executing_order_id : Int
  matched_order_id : Int
  timestamp : Nat
  amount : Int
  price : Int
deriving DecidableEq, Repr, Inhabited

/-- `struct Order` of `main.rs` (no strategy field). -/
structure Order where
  side : Side
  amount : Int
  price : Int
  timestamp : Int
deriving DecidableEq, Repr, Inhabited

/-- `impl Ord for Order` (`main.rs` lines 40-50, identically `orders.rs`
lines 53-63): `(self.price, self.timestamp).cmp(&((other.price * multiplier),
other.timestamp))` with `multiplier = -1` iff `self.side == Ask`.
Note the multiplier is applied to `other`'s price only. -/
def Order.cmp (a b : Order) : Ordering :=
  let multiplier : Int := if a.side = Side.Ask then -1 else 1
  match compare a.price (b.price * multiplier) with
  | Ordering.eq => compare a.timestamp b.timestamp
  | o => o

/-- Rust `<=` on `Order`, derived from `partial_cmp = Some(cmp)`. -/
def Order.cmpLe (a b : Order) : Bool := decide (Order.cmp a b ≠ Ordering.gt)

/-- Rust `>=` on `Order`, derived from `partial_cmp = Some(cmp)`. -/
def Order.cmpGe (a b : Order) : Bool := decide (Order.cmp a b ≠ Ordering.lt)

/-- Rust `<` on `Order`, derived from `partial_cmp = Some(cmp)`. -/
def Order.cmpLt (a b : Order) : Bool := decide (Order.cmp a b = Ordering.lt)

/-- `impl PartialEq for Order` (`main.rs` lines 58-62): compares only
`price` and `timestamp`. -/
def Order.beqO (a b : Order) : Bool :=
  decide (a.price = b.price) && decide (a.timestamp = b.timestamp)

/-- `Order::matches` (`main.rs` lines 33-38). -/
def Order.matchesO (a b : Order) : Bool :=
  (decide (a.side = Side.Bid) && decide (b.price ≤ a.price))
    || (decide (a.side = Side.Ask) && decide (a.price ≤ b.price))

/-- `BinaryHeap::sift_up(0, pos)` on the backing vector `data`, with the
hole at `pos` holding element `x`.  `fuel = pos` at the call sites: the hole
index strictly decreases each iteration, and once it reaches 0 the loop
exits writing `x`, which is also what the fuel-0 branch does. -/
def siftUpFuel : Nat → List Order → Order → Nat → List Order
  | 0, data, x, pos => data.set pos x
  | fuel + 1, data, x, pos =>
    if pos = 0 then data.set pos x
    else
      let parent := (pos - 1) / 2
      let p := data.getD parent default
      if Order.cmpLe x p then data.set pos x
      else siftUpFuel fuel (data.set pos p) x parent

/-- `BinaryHeap::push` (`data.push(item); sift_up(0, old_len)`). -/
def heapPush (q : List Order) (x : Order) : List Order :=
  siftUpFuel q.length (q ++ [x]) x q.length

/-- `BinaryHeap::peek` returns `data.get(0)`. -/
def heapPeek (q : List Order) : Option Order := q.head?

/-- `child += (hole.get(child) <= hole.get(child + 1)) as usize`: step to the
larger of the two children (the right one on a `<=` tie). -/
def pickChild (data : List Order) (child : Nat) : Nat :=
  if Order.cmpLe (data.getD child default) (data.getD (child + 1) default)
  then child + 1 else child

/-- `BinaryHeap::sift_down_range(pos, en)` with the hole at `pos` holding
`x` (used by `PeekMut::drop` with `pos = 0`, `en = len`).  The hole index
strictly increases, bounded by `en`, so `fuel = en + 1` is never
exhausted. -/
def siftDownFuel : Nat → List Order → Order → Nat → Nat → List Order
  | 0, data, x, pos, _ => data.set pos x
  | fuel + 1, data, x, pos, en =>
    let child := 2 * pos + 1
    if child + 2 ≤ en then
      let c := pickChild data child
      if Order.cmpGe x (data.getD c default) then data.set pos x
      else siftDownFuel fuel (data.set pos (data.getD c default)) x c en
    else if child + 1 = en then
      if Order.cmpLt x (data.getD child default)
      then (data.set pos (data.getD child default)).set child x
      else data.set pos x
    else data.set pos x

/-- The hole-walking loop of `BinaryHeap::sift_down_to_bottom(pos)` (used by
`pop`): the hole walks to the bottom following the larger child, returning
the moved vector and the final hole position (the hole's element is then
re-inserted by `sift_up`).  `fuel = en + 1` is never exhausted. -/
def siftDownBottomFuel : Nat → List Order → Nat → Nat → List Order × Nat
  | 0, data, pos, _ => (data, pos)
  | fuel + 1, data, pos, en =>
    let child := 2 * pos + 1
    if child + 2 ≤ en then
      let c := pickChild data child
      siftDownBottomFuel fuel (data.set pos (data.getD c default)) c en
    else if child + 1 = en then (data.set pos (data.getD child default), child)
    else (data, pos)

/-- `BinaryHeap::pop`: remove the last element; if the heap is still
non-empty, swap it with the root and restore with `sift_down_to_bottom(0)`
(hole walk to the bottom, then `sift_up(0, hole)`); return the old root. -/
def heapPop (q : List Order) : Option Order × List Order :=
  match q.getLast? with
  | none => (none, [])
  | some item =>
    let rest := q.dropLast
    if rest.isEmpty then (some item, rest)
    else
      let root := rest.getD 0 default
      let rest1 := rest.set 0 item
      let r := siftDownBottomFuel (rest.length + 1) rest1 0 rest.length
      (some root, siftUpFuel r.2 r.1 item r.2)

/-- `other_side.peek_mut().unwrap().amount -= matched_amount` followed by
`PeekMut::drop`, which runs `sift_down_range(0, len)` on the mutated root. -/
def decrementTop (q : List Order) (amt : Int) : List Order :=
  match q with
  | [] => []
  | h :: t =>
    let h' : Order := { h with amount := h.amount - amt }
    siftDownFuel (q.length + 1) (h' :: t) h' 0 q.length

/-- The `while` loop of `execute_limit_order` (`main.rs` lines 126-152).
Each iteration either pops one resting order from `other` or zeroes
`new_order.amount` (ending the loop), so the loop runs at most
`other.length + 1` iterations and the fuel passed by `execute_limit_order`
is never exhausted.  `k` counts the fills already made, so `clock k` is the
`SystemTime::now()` reading stamped on this iteration's `Trade`.
Returns (trades pushed so far, final opposite queue, final incoming order). -/
def matchLoop : Nat → List Order → Order → (Nat → Nat) → Nat →
    List Trade × List Order × Order
  | 0, other, o, _, _ => ([], other, o)
  | fuel + 1, other, o, clock, k =>
    match other with
    | [] => ([], other, o)
    | matched_order :: _ =>
      if 0 < o.amount ∧ Order.matchesO o matched_order = true then
        let matched_amount := min o.amount matched_order.amount
        let price := matched_order.price
        let o' : Order := { o with amount := o.amount - matched_amount }
        let other' :=
          if matched_amount = matched_order.amount then (heapPop other).2
          else decrementTop other matched_amount
        let t : Trade := { executing_order_id := 1, matched_order_id := 1,
                           timestamp := clock k, amount := matched_amount,
                           price := price }
        let r := matchLoop fuel other' o' clock (k + 1)
        (t :: r.1, r.2)
      else ([], other, o)

/-- `execute_limit_order` (`main.rs` lines 112-162).  Returns the trade
sequence and the final (asks, bids) queues.  `clock` models the per-fill
`SystemTime::now()` readings. -/
def execute_limit_order (asks bids : List Order) (new_order : Order)
    (clock : Nat → Nat) : List Trade × List Order × List Order :=
  let other := if new_order.side = Side.Bid then asks else bids
  let same := if new_order.side = Side.Bid then bids else asks
  let r := matchLoop (other.length + 1) other new_order clock 0
  let o' := r.2.2
  let same' := if 0 < o'.amount then heapPush same o' else same
  if new_order.side = Side.Bid then (r.1, r.2.1, same') else (r.1, same', r.2.1)

/-- Sum of the `amount` fields of a trade list. -/
def sumAmounts : List Trade → Int
  | [] => 0
  | t :: ts => t.amount + sumAmounts ts

/-- `q.all (0 < ·.amount)`: every order in the queue has positive amount. -/
def allPosAmount (q : List Order) : Bool :=
  q.all fun r => decide (0 < r.amount)

/-- The incoming order cannot cross any order of `book`: a Bid priced
strictly below every member, an Ask priced strictly above every member. -/
def cannotCross (o : Order) (book : List Order) : Bool :=
  book.all fun m =>
    match o.side with
    | Side.Bid => decide (o.price < m.price)
    | Side.Ask => decide (m.price < o.price)

/-- `other_side` of `execute_limit_order`: the queue opposite the incoming
order's side. -/
def oppositeQueue (asks bids : List Order) (o : Order) : List Order :=
  if o.side = Side.Bid then asks else bids

/-- `same_side` of `execute_limit_order`. -/
def sameQueue (asks bids : List Order) (o : Order) : List Order :=
  if o.side = Side.Bid then bids else asks

/-- The matching `while` loop as run by `execute_limit_order`: trades,
final opposite queue, final incoming order. -/
def engineLoop (asks bids : List Order) (o : Order) (clock : Nat → Nat) :
    List Trade × List Order × Order :=
  matchLoop ((oppositeQueue asks bids o).length + 1) (oppositeQueue asks bids o) o clock 0

/-- Equality of trades on every field except the wall-clock timestamp. -/
def tradeEqNoTs (t1 t2 : Trade) : Prop :=
  t1.executing_order_id = t2.executing_order_id ∧
    t1.matched_order_id = t2.matched_order_id ∧
    t1.amount = t2.amount ∧ t1.price = t2.price

/-- `enum Strategy` (`orders.rs` lines 19-23). -/
inductive Strategy where
  | Limit : Strategy
  | Market : Strategy
deriving DecidableEq, Repr, Inhabited

/-- `struct Order` of `orders.rs` (lines 38-45): the `main.rs` order plus a
`strategy` field. -/
structure OrderS where
  side : Side
  amount : Int
  price : Int
  timestamp : Int
  strategy : Strategy
deriving DecidableEq, Repr, Inhabited

/-- `Strategy::matches` (`orders.rs` lines 25-36).  The trailing
`panic!("Noooo")` branch is unreachable (the enum has exactly the two
variants), so the two-way match is the whole function. -/
def Strategy.matchesS (s : Strategy) (this_order other : OrderS) : Bool :=
  match s with
  | Strategy.Limit =>
    (decide (this_order.side = Side.Bid) && decide (other.price ≤ this_order.price))
      || (decide (this_order.side = Side.Ask) && decide (this_order.price ≤ other.price))
  | Strategy.Market => true

/-- `Order::matches` (`orders.rs` lines 47-51). -/
def OrderS.matchesS (a b : OrderS) : Bool := a.strategy.matchesS a b

/-- `impl PartialEq for Order` (`orders.rs` lines 71-75): compares only
`price` and `timestamp` (side, amount and strategy ignored). -/
def OrderS.beqS (a b : OrderS) : Bool :=
  decide (a.price = b.price) && decide (a.timestamp = b.timestamp)

/-- Outcome of running `Order::from_str` (`orders.rs` lines 79-110): the
function either returns `Ok(order)` or panics — the `text_io::scan!` macro
panics on any token that fails to parse as `i32` (it is `try_scan!(...)`
followed by `unwrap()`), and the side/strategy range checks call `panic!`
directly.  No execution path builds the declared `Err(ParseIntError)`
value, so the model has no error constructor: `panicked` is an unwinding
panic that terminates the process. -/
inductive ParseResult where
  | ok : OrderS → ParseResult
  | panicked : String → ParseResult
deriving DecidableEq, Repr

/-- Rust `i32::from_str`: optional sign, decimal digits, range check. -/
def parseI32 (cs : List Char) : Option Int :=
  let sd : Int × List Char :=
    match cs with
    | '-' :: rest => (-1, rest)
    | '+' :: rest => (1, rest)
    | _ => (1, cs)
  if sd.2 ≠ [] ∧ sd.2.all Char.isDigit then
    let n : Nat := sd.2.foldl (fun acc c => acc * 10 + (c.toNat - 48)) 0
    let v : Int := sd.1 * (n : Int)
    if -(2 ^ 31) ≤ v ∧ v ≤ 2 ^ 31 - 1 then some v else none
  else none

/-- Token split of `scan!(raw.bytes() => "{} {} {} {} {}", ...)`: each `{}`
captures up to the next literal space of the format (the last one to the end
of the line). -/
def splitSpaces (cs : List Char) : List (List Char) :=
  match cs with
  | [] => [[]]
  | c :: rest =>
    let r := splitSpaces rest
    if c = ' ' then [] :: r
    else
      match r with
      | [] => [[c]]
      | t :: ts => (c :: t) :: ts

/-- `order_from_str` / `Order::from_str` (`orders.rs` lines 79-114): scan
five `i32` tokens (panicking on a malformed token), then map the side code
(`4` = Ask, `8` = Bid, anything else panics "Invalid side") and the strategy
code (`0` = Limit, `1` = Market, anything else panics "Invalid strategy"). -/
def order_from_str (raw : String) : ParseResult :=
  match (splitSpaces raw.data).mapM parseI32 with
  | some [side_int, amount, price, timestamp, strategy_int] =>
    match (if side_int = 4 then some Side.Ask
           else if side_int = 8 then some Side.Bid
           else none : Option Side) with
    | none => ParseResult.panicked "Invalid side"
    | some side =>
      match (if strategy_int = 0 then some Strategy.Limit
             else if strategy_int = 1 then some Strategy.Market
             else none : Option Strategy) with
      | none => ParseResult.panicked "Invalid strategy"
      | some strategy =>
        ParseResult.ok ⟨side, amount, price, timestamp, strategy⟩
  | some _ => ParseResult.panicked "could not parse input"
  | none => ParseResult.panicked "could not parse input"

/-! ### Helper lemmas about list indexing and multisets -/

lemma getD_mem_of_lt {l : List Order} {i : Nat} (h : i < l.length) (d : Order) :
    l.getD i d ∈ l := by
  rw [List.getD_eq_getElem?_getD, List.getElem?_eq_getElem h]
  exact List.getElem_mem h

lemma multiset_set (l : List Order) (i : Nat) (a : Order) (h : i < l.length) :
    ((l.set i a : List Order) : Multiset Order) + {l.getD i default} =
      (l : Multiset Order) + {a} := by
  induction l generalizing i with
  | nil => simp at h
  | cons x t ih =>
    cases i with
    | zero =>
      simp only [List.set, List.getD_cons_zero, ← Multiset.cons_coe]
      rw [← Multiset.singleton_add, ← Multiset.singleton_add]
      abel
    | succ n =>
      have h' : n < t.length := by simpa using h
      simp only [List.set, List.getD_cons_succ, ← Multiset.cons_coe]
      rw [← Multiset.singleton_add, ← Multiset.singleton_add, add_assoc, add_assoc,
        ih n h']

/-! ### Length, membership and multiset lemmas for the heap operations -/

lemma length_siftUpFuel : ∀ (fuel : Nat) (data : List Order) (x : Order) (pos : Nat),
    (siftUpFuel fuel data x pos).length = data.length
  | 0, data, x, pos => by simp [siftUpFuel]
  | fuel + 1, data, x, pos => by
    simp only [siftUpFuel]
    split
    · simp
    · split
      · simp
      · rw [length_siftUpFuel fuel]
        simp

lemma length_siftDownFuel : ∀ (fuel : Nat) (data : List Order) (x : Order) (pos en : Nat),
    (siftDownFuel fuel data x pos en).length = data.length
  | 0, data, x, pos, en => by simp [siftDownFuel]
  | fuel + 1, data, x, pos, en => by
    simp only [siftDownFuel]
    split
    · split
      · simp
      · rw [length_siftDownFuel fuel]
        simp
    · split
      · split <;> simp
      · simp

lemma pickChild_le (data : List Order) (child : Nat) :
    child ≤ pickChild data child ∧ pickChild data child ≤ child + 1 := by
  unfold pickChild; split <;> omega

lemma pickChild_lt_length {data : List Order} {child en : Nat}
    (h2 : child + 2 ≤ en) (hen : en ≤ data.length) :
    pickChild data child < data.length := by
  have := pickChild_le data child
  omega

lemma length_siftDownBottomFuel : ∀ (fuel : Nat) (data : List Order) (pos en : Nat),
    (siftDownBottomFuel fuel data pos en).1.length = data.length
  | 0, data, pos, en => by simp [siftDownBottomFuel]
  | fuel + 1, data, pos, en => by
    simp only [siftDownBottomFuel]
    split
    · rw [length_siftDownBottomFuel fuel]
      simp
    · split <;> simp

lemma pos_siftDownBottomFuel : ∀ (fuel : Nat) (data : List Order) (pos en : Nat),
    pos < en → (siftDownBottomFuel fuel data pos en).2 < en
  | 0, _, _, _, h => h
  | fuel + 1, data, pos, en, h => by
    simp only [siftDownBottomFuel]
    split
    · apply pos_siftDownBottomFuel fuel
      have := pickChild_le data (2 * pos + 1)
      omega
    · split
      · omega
      · exact h

lemma mem_siftUpFuel : ∀ (fuel : Nat) (data : List Order) (x y : Order) (pos : Nat),
    pos < data.length → y ∈ siftUpFuel fuel data x pos → y ∈ data ∨ y = x
  | 0, data, x, y, pos, _, hm => List.mem_or_eq_of_mem_set hm
  | fuel + 1, data, x, y, pos, hpos, hm => by
    simp only [siftUpFuel] at hm
    split at hm
    · exact List.mem_or_eq_of_mem_set hm
    · split at hm
      · exact List.mem_or_eq_of_mem_set hm
      · rename_i hne _
        have hparent : (pos - 1) / 2 < pos := by omega
        have h1 := mem_siftUpFuel fuel (data.set pos (data.getD ((pos - 1) / 2) default))
          x y ((pos - 1) / 2) (by simpa using lt_trans hparent hpos) hm
        rcases h1 with h1 | h1
        · rcases List.mem_or_eq_of_mem_set h1 with h2 | h2
          · exact Or.inl h2
          · exact Or.inl (h2 ▸ getD_mem_of_lt (lt_trans hparent hpos) default)
        · exact Or.inr h1

lemma mem_siftDownFuel : ∀ (fuel : Nat) (data : List Order) (x y : Order) (pos en : Nat),
    en ≤ data.length → y ∈ siftDownFuel fuel data x pos en → y ∈ data ∨ y = x
  | 0, data, x, y, pos, en, _, hm => List.mem_or_eq_of_mem_set hm
  | fuel + 1, data, x, y, pos, en, hen, hm => by
    simp only [siftDownFuel] at hm
    split at hm
    · rename_i hchild
      have hclen : pickChild data (2 * pos + 1) < data.length :=
        pickChild_lt_length hchild hen
      split at hm
      · exact List.mem_or_eq_of_mem_set hm
      · have h1 := mem_siftDownFuel fuel
          (data.set pos (data.getD (pickChild data (2 * pos + 1)) default)) x y
          (pickChild data (2 * pos + 1)) en (by simpa using hen) hm
        rcases h1 with h1 | h1
        · rcases List.mem_or_eq_of_mem_set h1 with h2 | h2
          · exact Or.inl h2
          · exact Or.inl (h2 ▸ getD_mem_of_lt hclen default)
        · exact Or.inr h1
    · split at hm
      · rename_i hone
        split at hm
        · rcases List.mem_or_eq_of_mem_set hm with h2 | h2
          · rcases List.mem_or_eq_of_mem_set h2 with h3 | h3
            · exact Or.inl h3
            · exact Or.inl (h3 ▸ getD_mem_of_lt (by omega) default)
          · exact Or.inr h2
        · exact List.mem_or_eq_of_mem_set hm
      · exact List.mem_or_eq_of_mem_set hm

lemma mem_siftDownBottomFuel : ∀ (fuel : Nat) (data : List Order) (y : Order) (pos en : Nat),
    en ≤ data.length → y ∈ (siftDownBottomFuel fuel data pos en).1 → y ∈ data
  | 0, data, y, pos, en, _, hm => hm
  | fuel + 1, data, y, pos, en, hen, hm => by
    simp only [siftDownBottomFuel] at hm
    split at hm
    · rename_i hchild
      have hclen : pickChild data (2 * pos + 1) < data.length :=
        pickChild_lt_length hchild hen
      have h1 := mem_siftDownBottomFuel fuel
        (data.set pos (data.getD (pickChild data (2 * pos + 1)) default)) y
        (pickChild data (2 * pos + 1)) en (by simpa using hen) hm
      rcases List.mem_or_eq_of_mem_set h1 with h2 | h2
      · exact h2
      · exact h2 ▸ getD_mem_of_lt hclen default
    · split at hm
      · rcases List.mem_or_eq_of_mem_set hm with h2 | h2
        · exact h2
        · exact h2 ▸ getD_mem_of_lt (by omega) default
      · exact hm

lemma mem_heapPush {q : List Order} {x y : Order} (h : y ∈ heapPush q x) :
    y ∈ q ∨ y = x := by
  unfold heapPush at h
  have := mem_siftUpFuel q.length (q ++ [x]) x y q.length (by simp) h
  rcases this with h1 | h1
  · rcases List.mem_append.mp h1 with h2 | h2
    · exact Or.inl h2
    · exact Or.inr (by simpa using h2)
  · exact Or.inr h1

lemma length_heapPush (q : List Order) (x : Order) :
    (heapPush q x).length = q.length + 1 := by
  unfold heapPush
  rw [length_siftUpFuel]
  simp

lemma length_heapPop {q : List Order} (h : q ≠ []) :
    (heapPop q).2.length = q.length - 1 := by
  unfold heapPop
  cases hq : q.getLast? with
  | none => simp [List.getLast?_eq_none_iff] at hq; exact absurd hq h
  | some item =>
    obtain ⟨ys, rfl⟩ := List.getLast?_eq_some_iff.mp hq
    simp only [List.dropLast_concat]
    split
    · rename_i hys
      simp_all
    · simp only
      rw [length_siftUpFuel, length_siftDownBottomFuel]
      simp

lemma mem_heapPop {q : List Order} {y : Order} (h : y ∈ (heapPop q).2) : y ∈ q := by
  unfold heapPop at h
  cases hq : q.getLast? with
  | none => rw [hq] at h; simp at h
  | some item =>
    rw [hq] at h
    obtain ⟨ys, rfl⟩ := List.getLast?_eq_some_iff.mp hq
    simp only [List.dropLast_concat] at h
    split at h
    · exact List.mem_append_left _ h
    · rename_i hys
      have hys' : ys ≠ [] := by simpa [List.isEmpty_iff] using hys
      have hlen0 : 0 < ys.length := List.length_pos.mpr hys'
      simp only at h
      have hlen1 : (siftDownBottomFuel (ys.length + 1) (ys.set 0 item) 0 ys.length).1.length
          = ys.length := by rw [length_siftDownBottomFuel]; simp
      have hpos : (siftDownBottomFuel (ys.length + 1) (ys.set 0 item) 0 ys.length).2
          < ys.length := pos_siftDownBottomFuel _ _ _ _ hlen0
      have h1 := mem_siftUpFuel _ _ item y _ (by rw [hlen1]; exact hpos) h
      rcases h1 with h1 | h1
      · have h2 := mem_siftDownBottomFuel _ _ y _ _ (by simp) h1
        rcases List.mem_or_eq_of_mem_set h2 with h3 | h3
        · exact List.mem_append_left _ h3
        · exact h3 ▸ List.mem_append_right _ (by simp)
      · exact h1 ▸ List.mem_append_right _ (by simp)

lemma multiset_siftUpFuel : ∀ (fuel : Nat) (data : List Order) (x : Order) (pos : Nat),
    pos < data.length →
    ((siftUpFuel fuel data x pos : List Order) : Multiset Order) =
      ((data.set pos x : List Order) : Multiset Order)
  | 0, _, _, _, _ => rfl
  | fuel + 1, data, x, pos, hpos => by
    simp only [siftUpFuel]
    split
    · rfl
    · split
      · rfl
      · rename_i hne _
        have hparent : (pos - 1) / 2 < pos := by omega
        have hplen : (pos - 1) / 2 < data.length := lt_trans hparent hpos
        rw [multiset_siftUpFuel fuel _ x _ (by simpa using hplen)]
        have e1 := multiset_set (data.set pos (data.getD ((pos - 1) / 2) default))
          ((pos - 1) / 2) x (by simpa using hplen)
        have e2 := multiset_set data pos (data.getD ((pos - 1) / 2) default) hpos
        have e3 := multiset_set data pos x hpos
        have hgd : (data.set pos (data.getD ((pos - 1) / 2) default)).getD
            ((pos - 1) / 2) default = data.getD ((pos - 1) / 2) default := by
          rw [List.getD_eq_getElem?_getD, List.getD_eq_getElem?_getD,
            List.getElem?_set_ne (by omega)]
        rw [hgd] at e1
        have key2 :
            ((((data.set pos (data.getD ((pos - 1) / 2) default)).set ((pos - 1) / 2) x :
              List Order) : Multiset Order) + {data.getD pos default}) +
                {data.getD ((pos - 1) / 2) default} =
            (((data.set pos x : List Order) : Multiset Order) + {data.getD pos default}) +
                {data.getD ((pos - 1) / 2) default} := by
          calc ((((data.set pos (data.getD ((pos - 1) / 2) default)).set ((pos - 1) / 2) x :
              List Order) : Multiset Order) + {data.getD pos default}) +
                {data.getD ((pos - 1) / 2) default}
              = ((((data.set pos (data.getD ((pos - 1) / 2) default)).set ((pos - 1) / 2) x :
                List Order) : Multiset Order) + {data.getD ((pos - 1) / 2) default}) +
                  {data.getD pos default} := by rw [add_right_comm]
            _ = (((data.set pos (data.getD ((pos - 1) / 2) default) : List Order) :
                Multiset Order) + {x}) + {data.getD pos default} := by rw [e1]
            _ = (((data.set pos (data.getD ((pos - 1) / 2) default) : List Order) :
                Multiset Order) + {data.getD pos default}) + {x} := by rw [add_right_comm]
            _ = ((data : Multiset Order) + {data.getD ((pos - 1) / 2) default}) + {x} := by
                rw [e2]
            _ = ((data : Multiset Order) + {x}) + {data.getD ((pos - 1) / 2) default} := by
                rw [add_right_comm]
            _ = (((data.set pos x : List Order) : Multiset Order) + {data.getD pos default}) +
                {data.getD ((pos - 1) / 2) default} := by rw [e3]
        exact add_right_cancel (add_right_cancel key2)

lemma multiset_heapPush (q : List Order) (x : Order) :
    ((heapPush q x : List Order) : Multiset Order) = x ::ₘ (q : Multiset Order) := by
  unfold heapPush
  rw [multiset_siftUpFuel _ _ _ _ (by simp)]
  have e := multiset_set (q ++ [x]) q.length x (by simp)
  have hgd : (q ++ [x]).getD q.length default = x := by
    rw [List.getD_eq_getElem?_getD, List.getElem?_append_right (by omega)]
    simp
  rw [hgd] at e
  have e2 := add_right_cancel e
  rw [e2, ← Multiset.coe_add, Multiset.coe_singleton, add_comm,
    Multiset.singleton_add]

lemma length_decrementTop (q : List Order) (amt : Int) :
    (decrementTop q amt).length = q.length := by
  cases q with
  | nil => rfl
  | cons h t =>
    simp only [decrementTop]
    rw [length_siftDownFuel]
    simp

lemma mem_decrementTop {h : Order} {t : List Order} {amt : Int} {y : Order}
    (hm : y ∈ decrementTop (h :: t) amt) :
    y ∈ h :: t ∨ y = { h with amount := h.amount - amt } := by
  simp only [decrementTop] at hm
  have h1 := mem_siftDownFuel _ _ _ y 0 (h :: t).length (by simp) hm
  rcases h1 with h1 | h1
  · rcases List.mem_cons.mp h1 with h2 | h2
    · exact Or.inr h2
    · exact Or.inl (List.mem_cons_of_mem _ h2)
  · exact Or.inr h1

/-! ### Invariants of the matching loop -/

lemma matchLoop_amount_nonpos (fuel : Nat) (other : List Order) (o : Order)
    (clock : Nat → Nat) (k : Nat) (h : o.amount ≤ 0) :
    matchLoop fuel other o clock k = ([], other, o) := by
  cases fuel with
  | zero => rfl
  | succ n =>
    cases other with
    | nil => rfl
    | cons hd tl =>
      have hc : ¬(0 < o.amount ∧ Order.matchesO o hd = true) :=
        fun hc => absurd hc.1 (not_lt.mpr h)
      simp only [matchLoop, if_neg hc]

/-- One unfolding step of `matchLoop` on a non-empty opposite queue. -/
lemma matchLoop_succ (fuel : Nat) (hd : Order) (tl : List Order) (o : Order)
    (clock : Nat → Nat) (k : Nat) :
    matchLoop (fuel + 1) (hd :: tl) o clock k =
      if 0 < o.amount ∧ Order.matchesO o hd = true then
        ({ executing_order_id := 1, matched_order_id := 1, timestamp := clock k,
           amount := min o.amount hd.amount, price := hd.price } ::
          (matchLoop fuel
            (if min o.amount hd.amount = hd.amount then (heapPop (hd :: tl)).2
             else decrementTop (hd :: tl) (min o.amount hd.amount))
            { o with amount := o.amount - min o.amount hd.amount } clock (k + 1)).1,
         (matchLoop fuel
            (if min o.amount hd.amount = hd.amount then (heapPop (hd :: tl)).2
             else decrementTop (hd :: tl) (min o.amount hd.amount))
            { o with amount := o.amount - min o.amount hd.amount } clock (k + 1)).2)
      else ([], hd :: tl, o) := rfl

lemma matchLoop_conservation : ∀ (fuel : Nat) (other : List Order) (o : Order)
    (clock : Nat → Nat) (k : Nat),
    sumAmounts (matchLoop fuel other o clock k).1 +
      (matchLoop fuel other o clock k).2.2.amount = o.amount
  | 0, other, o, clock, k => by simp [matchLoop, sumAmounts]
  | fuel + 1, other, o, clock, k => by
    cases other with
    | nil => simp [matchLoop, sumAmounts]
    | cons hd tl =>
      rw [matchLoop_succ fuel]
      by_cases hc : 0 < o.amount ∧ Order.matchesO o hd = true
      · rw [if_pos hc]
        have ih := matchLoop_conservation fuel
          (if min o.amount hd.amount = hd.amount then (heapPop (hd :: tl)).2
           else decrementTop (hd :: tl) (min o.amount hd.amount))
          { o with amount := o.amount - min o.amount hd.amount } clock (k + 1)
        simp only [sumAmounts]
        dsimp only at ih ⊢
        omega
      · rw [if_neg hc]
        simp [sumAmounts]

lemma matchLoop_price : ∀ (fuel : Nat) (other : List Order) (o : Order)
    (clock : Nat → Nat) (k : Nat) (t : Trade),
    t ∈ (matchLoop fuel other o clock k).1 → ∃ r ∈ other, t.price = r.price
  | 0, other, o, clock, k, t, ht => by simp [matchLoop] at ht
  | fuel + 1, other, o, clock, k, t, ht => by
    cases other with
    | nil => simp [matchLoop] at ht
    | cons hd tl =>
      simp only [matchLoop] at ht
      split at ht
      · rename_i hc
        rcases List.mem_cons.mp ht with h1 | h1
        · exact ⟨hd, List.mem_cons_self hd tl, by rw [h1]⟩
        · have ih := matchLoop_price fuel _ _ clock (k + 1) t h1
          rcases ih with ⟨r, hr, hpr⟩
          by_cases hfull : min o.amount hd.amount = hd.amount
          · rw [if_pos hfull] at hr
            exact ⟨r, mem_heapPop hr, hpr⟩
          · rw [if_neg hfull] at hr
            rcases mem_decrementTop hr with h2 | h2
            · exact ⟨r, h2, hpr⟩
            · exact ⟨hd, List.mem_cons_self hd tl, by rw [hpr, h2]⟩
      · simp at ht

lemma matchLoop_posAmount : ∀ (fuel : Nat) (other : List Order) (o : Order)
    (clock : Nat → Nat) (k : Nat),
    (∀ r ∈ other, 0 < r.amount) →
    ∀ y ∈ (matchLoop fuel other o clock k).2.1, 0 < y.amount
  | 0, other, o, clock, k, hall, y, hy => hall y hy
  | fuel + 1, other, o, clock, k, hall, y, hy => by
    cases other with
    | nil => exact hall y hy
    | cons hd tl =>
      simp only [matchLoop] at hy
      split at hy
      · rename_i hc
        by_cases hfull : min o.amount hd.amount = hd.amount
        · rw [if_pos hfull] at hy
          exact matchLoop_posAmount fuel _ _ clock (k + 1)
            (fun r hr => hall r (mem_heapPop hr)) y hy
        · rw [if_neg hfull] at hy
          refine matchLoop_posAmount fuel _ _ clock (k + 1) ?_ y hy
          intro r hr
          rcases mem_decrementTop hr with h2 | h2
          · exact hall r h2
          · have hmin : min o.amount hd.amount ≤ hd.amount := min_le_right _ _
            rw [h2]
            dsimp only
            omega
      · exact hall y hy

lemma matchLoop_length_le : ∀ (fuel : Nat) (other : List Order) (o : Order)
    (clock : Nat → Nat) (k : Nat),
    (matchLoop fuel other o clock k).2.1.length ≤ other.length
  | 0, other, o, clock, k => le_refl _
  | fuel + 1, other, o, clock, k => by
    cases other with
    | nil => exact le_refl _
    | cons hd tl =>
      simp only [matchLoop]
      split
      · dsimp only
        by_cases hfull : min o.amount hd.amount = hd.amount
        · rw [if_pos hfull]
          have h1 := matchLoop_length_le fuel (heapPop (hd :: tl)).2
            { o with amount := o.amount - min o.amount hd.amount } clock (k + 1)
          have h2 := length_heapPop (show (hd :: tl : List Order) ≠ [] by simp)
          omega
        · rw [if_neg hfull]
          have h1 := matchLoop_length_le fuel (decrementTop (hd :: tl) (min o.amount hd.amount))
            { o with amount := o.amount - min o.amount hd.amount } clock (k + 1)
          have h2 := length_decrementTop (hd :: tl) (min o.amount hd.amount)
          omega
      · exact le_refl _

lemma matchLoop_clock : ∀ (fuel : Nat) (other : List Order) (o : Order)
    (c1 c2 : Nat → Nat) (k1 k2 : Nat),
    (matchLoop fuel other o c1 k1).2 = (matchLoop fuel other o c2 k2).2 ∧
      List.Forall₂ tradeEqNoTs (matchLoop fuel other o c1 k1).1
        (matchLoop fuel other o c2 k2).1
  | 0, other, o, c1, c2, k1, k2 => ⟨rfl, List.Forall₂.nil⟩
  | fuel + 1, other, o, c1, c2, k1, k2 => by
    cases other with
    | nil => exact ⟨rfl, List.Forall₂.nil⟩
    | cons hd tl =>
      by_cases hc : 0 < o.amount ∧ Order.matchesO o hd = true
      · rw [matchLoop_succ fuel, matchLoop_succ fuel, if_pos hc, if_pos hc]
        have ih := matchLoop_clock fuel
          (if min o.amount hd.amount = hd.amount then (heapPop (hd :: tl)).2
           else decrementTop (hd :: tl) (min o.amount hd.amount))
          { o with amount := o.amount - min o.amount hd.amount } c1 c2 (k1 + 1) (k2 + 1)
        refine ⟨ih.1, ?_⟩
        refine List.Forall₂.cons ?_ ih.2
        exact ⟨rfl, rfl, rfl, rfl⟩
      · rw [matchLoop_succ fuel, matchLoop_succ fuel, if_neg hc, if_neg hc]
        exact ⟨rfl, List.Forall₂.nil⟩

lemma matchLoop_step_head (fuel : Nat) (hd : Order) (tl : List Order) (o : Order)
    (clock : Nat → Nat) (k : Nat) (h1 : 0 < o.amount)
    (h2 : Order.matchesO o hd = true) :
    (matchLoop (fuel + 1) (hd :: tl) o clock k).1.head? =
      some { executing_order_id := 1, matched_order_id := 1, timestamp := clock k,
             amount := min o.amount hd.amount, price := hd.price } := by
  simp only [matchLoop, if_pos (And.intro h1 h2)]
  rfl

/-- Fuel irrelevance: with at least `other.length + 1` fuel the loop result
does not depend on the fuel, i.e. `execute_limit_order`'s fuel choice
computes the limit of the Rust `while` loop. -/
lemma matchLoop_fuel_mono : ∀ (fuel1 fuel2 : Nat) (other : List Order) (o : Order)
    (clock : Nat → Nat) (k : Nat),
    other.length + 1 ≤ fuel1 → other.length + 1 ≤ fuel2 →
    matchLoop fuel1 other o clock k = matchLoop fuel2 other o clock k
  | 0, _, other, o, clock, k, h1, _ => absurd h1 (by omega)
  | _ + 1, 0, other, o, clock, k, _, h2 => absurd h2 (by omega)
  | f1 + 1, f2 + 1, other, o, clock, k, h1, h2 => by
    cases other with
    | nil => rfl
    | cons hd tl =>
      rw [matchLoop_succ f1, matchLoop_succ f2]
      by_cases hc : 0 < o.amount ∧ Order.matchesO o hd = true
      · rw [if_pos hc, if_pos hc]
        by_cases hfull : min o.amount hd.amount = hd.amount
        · rw [if_pos hfull]
          have hlen := length_heapPop (show (hd :: tl : List Order) ≠ [] by simp)
          have hlc : (hd :: tl).length = tl.length + 1 := List.length_cons hd tl
          rw [matchLoop_fuel_mono f1 f2 (heapPop (hd :: tl)).2
            { o with amount := o.amount - min o.amount hd.amount } clock (k + 1)
            (by omega) (by omega)]
        · rw [if_neg hfull]
          have hzero : ({ o with amount := o.amount - min o.amount hd.amount } : Order).amount
              ≤ 0 := by
            show o.amount - min o.amount hd.amount ≤ 0
            omega
          rw [matchLoop_amount_nonpos f1 _ _ clock (k + 1) hzero,
            matchLoop_amount_nonpos f2 _ _ clock (k + 1) hzero]
      · rw [if_neg hc, if_neg hc]

/-- Fuel irrelevance: with at least `other.length + 1` fuel the loop result
does not depend on the fuel, i.e. `execute_limit_order`'s fuel choice
computes the limit of the Rust `while` loop. -/
lemma matchLoop_fuel_ge (fuel : Nat) (other : List Order) (o : Order)
    (clock : Nat → Nat) (k : Nat) (h : other.length + 1 ≤ fuel) :
    matchLoop fuel other o clock k = matchLoop (other.length + 1) other o clock k :=
  matchLoop_fuel_mono fuel (other.length + 1) other o clock k h (le_refl _)

/-! ### The engine seen through its components -/

lemma execute_eq (asks bids : List Order) (o : Order) (clock : Nat → Nat) :
    execute_limit_order asks bids o clock =
      if o.side = Side.Bid then
        ((engineLoop asks bids o clock).1, (engineLoop asks bids o clock).2.1,
          if 0 < (engineLoop asks bids o clock).2.2.amount
          then heapPush bids (engineLoop asks bids o clock).2.2 else bids)
      else
        ((engineLoop asks bids o clock).1,
          if 0 < (engineLoop asks bids o clock).2.2.amount
          then heapPush asks (engineLoop asks bids o clock).2.2 else asks,
          (engineLoop asks bids o clock).2.1) := by
  by_cases hs : o.side = Side.Bid <;>
    simp [execute_limit_order, engineLoop, oppositeQueue, hs]

lemma execute_trades (asks bids : List Order) (o : Order) (clock : Nat → Nat) :
    (execute_limit_order asks bids o clock).1 = (engineLoop asks bids o clock).1 := by
  rw [execute_eq]
  by_cases hs : o.side = Side.Bid <;> simp [hs]

lemma allPosAmount_iff (q : List Order) :
    allPosAmount q = true ↔ ∀ r ∈ q, 0 < r.amount := by
  simp [allPosAmount]

lemma cannotCross_not_matches {o hd : Order} {book : List Order}
    (h : cannotCross o book = true) (hmem : hd ∈ book) :
    Order.matchesO o hd = false := by
  unfold cannotCross at h
  rw [List.all_eq_true] at h
  have hh := h hd hmem
  unfold Order.matchesO
  cases hside : o.side with
  | Bid =>
    simp only [hside, decide_eq_true_eq] at hh
    simp [hside]
    omega
  | Ask =>
    simp only [hside, decide_eq_true_eq] at hh
    simp [hside]
    omega

lemma engineLoop_noop (asks bids : List Order) (o : Order) (clock : Nat → Nat)
    (h : cannotCross o (oppositeQueue asks bids o) = true) :
    engineLoop asks bids o clock = ([], oppositeQueue asks bids o, o) := by
  unfold engineLoop
  cases hq : oppositeQueue asks bids o with
  | nil => rfl
  | cons hd tl =>
    rw [matchLoop_succ]
    rw [if_neg]
    intro hc
    have hf := cannotCross_not_matches h (hq ▸ List.mem_cons_self hd tl)
    rw [hc.2] at hf
    simp at hf


/-! ### The claims -/

/-- **C1** (evidence of the code bug): price-time priority of the queue
heads fails on the code's comparator.  Pushing the price-10 ask and then the
price-20 ask leaves the price-20 ask at the head returned by `peek` even
though the price-10 ask is resting in the queue (an Ask head should be the
*lowest* price); and on the Bid side a price tie is headed by the *later*
timestamp, not the earlier one. -/
theorem C1_peek_head_not_best :
    (heapPeek (heapPush (heapPush [] ⟨Side.Ask, 10, 10, 1⟩) ⟨Side.Ask, 10, 20, 2⟩) =
        some ⟨Side.Ask, 10, 20, 2⟩ ∧
      (⟨Side.Ask, 10, 10, 1⟩ : Order) ∈
        heapPush (heapPush [] ⟨Side.Ask, 10, 10, 1⟩) ⟨Side.Ask, 10, 20, 2⟩ ∧
      (⟨Side.Ask, 10, 10, 1⟩ : Order).price < (⟨Side.Ask, 10, 20, 2⟩ : Order).price) ∧
    (heapPeek (heapPush (heapPush [] ⟨Side.Bid, 5, 10, 1⟩) ⟨Side.Bid, 5, 10, 2⟩) =
        some ⟨Side.Bid, 5, 10, 2⟩ ∧
      (⟨Side.Bid, 5, 10, 1⟩ : Order) ∈
        heapPush (heapPush [] ⟨Side.Bid, 5, 10, 1⟩) ⟨Side.Bid, 5, 10, 2⟩ ∧
      (⟨Side.Bid, 5, 10, 1⟩ : Order).price = (⟨Side.Bid, 5, 10, 2⟩ : Order).price ∧
      (⟨Side.Bid, 5, 10, 1⟩ : Order).timestamp < (⟨Side.Bid, 5, 10, 2⟩ : Order).timestamp) := by
  decide

/-- **C2**: amount conservation.  For `execute_limit_order` with a positive
incoming amount on an all-positive book: the returned trades are those of
the matching loop, their amounts plus the incoming order's remaining amount
equal the incoming order's initial amount; and every loop iteration that
fires emits a trade whose amount is `min` of the incoming order's amount and
the head candidate's amount just before the fill. -/
theorem C2_amount_conservation (asks bids : List Order) (o : Order) (clock : Nat → Nat)
    (hd2 : Order) (tl2 : List Order) (o2 : Order) (fuel2 k2 : Nat)
    (h1 : 0 < o.amount) (h2 : allPosAmount asks = true) (h3 : allPosAmount bids = true)
    (h4 : 0 < o2.amount) (h5 : Order.matchesO o2 hd2 = true) :
    ((execute_limit_order asks bids o clock).1 = (engineLoop asks bids o clock).1 ∧
      sumAmounts (execute_limit_order asks bids o clock).1 +
        (engineLoop asks bids o clock).2.2.amount = o.amount) ∧
    (matchLoop (fuel2 + 1) (hd2 :: tl2) o2 clock k2).1.head? =
      some { executing_order_id := 1, matched_order_id := 1, timestamp := clock k2,
             amount := min o2.amount hd2.amount, price := hd2.price } := by
  refine ⟨⟨execute_trades asks bids o clock, ?_⟩,
    matchLoop_step_head fuel2 hd2 tl2 o2 clock k2 h4 h5⟩
  rw [execute_trades]
  exact matchLoop_conservation _ _ _ clock 0

theorem C2_amount_conservation_witness :
    ((execute_limit_order [⟨Side.Ask, 10, 10, 1⟩] [] ⟨Side.Bid, 4, 10, 2⟩ (fun _ => 7)).1 =
        (engineLoop [⟨Side.Ask, 10, 10, 1⟩] [] ⟨Side.Bid, 4, 10, 2⟩ (fun _ => 7)).1 ∧
      sumAmounts (execute_limit_order [⟨Side.Ask, 10, 10, 1⟩] [] ⟨Side.Bid, 4, 10, 2⟩
          (fun _ => 7)).1 +
        (engineLoop [⟨Side.Ask, 10, 10, 1⟩] [] ⟨Side.Bid, 4, 10, 2⟩ (fun _ => 7)).2.2.amount =
        (⟨Side.Bid, 4, 10, 2⟩ : Order).amount) ∧
    (matchLoop (0 + 1) (⟨Side.Ask, 3, 5, 1⟩ :: []) ⟨Side.Bid, 2, 6, 2⟩ (fun _ => 7) 0).1.head? =
      some { executing_order_id := 1, matched_order_id := 1,
             timestamp := (fun _ : Nat => 7) 0,
             amount := min (⟨Side.Bid, 2, 6, 2⟩ : Order).amount
               (⟨Side.Ask, 3, 5, 1⟩ : Order).amount,
             price := (⟨Side.Ask, 3, 5, 1⟩ : Order).price } :=
  C2_amount_conservation [⟨Side.Ask, 10, 10, 1⟩] [] ⟨Side.Bid, 4, 10, 2⟩ (fun _ => 7)
    ⟨Side.Ask, 3, 5, 1⟩ [] ⟨Side.Bid, 2, 6, 2⟩ 0 0 (by decide) (by decide) (by decide)
    (by decide) (by decide)

/-- **C3**: maker price.  Every trade of `execute_limit_order` carries the
price of some order resting in the opposite queue (candidate prices are
never altered by partial fills, so this is the matched maker's price at the
moment of the fill); when the incoming order's price differs from every
resting opposite price, no trade carries the incoming (taker) price; and the
trade emitted by a firing loop iteration has exactly the head candidate's
price. -/
theorem C3_maker_price (asks bids : List Order) (o : Order) (clock : Nat → Nat)
    (asks3 bids3 : List Order) (o3 : Order) (clock3 : Nat → Nat)
    (hd2 : Order) (tl2 : List Order) (o2 : Order) (fuel2 k2 : Nat)
    (h1 : 0 < o.amount) (h2 : allPosAmount asks = true) (h3 : allPosAmount bids = true)
    (h6 : ((oppositeQueue asks3 bids3 o3).all fun m => m.price != o3.price) = true)
    (h4 : 0 < o2.amount) (h5 : Order.matchesO o2 hd2 = true) :
    (((execute_limit_order asks bids o clock).1.all fun t =>
        (oppositeQueue asks bids o).any fun m => t.price == m.price) = true) ∧
    (((execute_limit_order asks3 bids3 o3 clock3).1.all fun t => t.price != o3.price)
        = true) ∧
    ((matchLoop (fuel2 + 1) (hd2 :: tl2) o2 clock k2).1.head?.map Trade.price =
      some hd2.price) := by
  refine ⟨?_, ?_, ?_⟩
  · rw [execute_trades, List.all_eq_true]
    intro t ht
    obtain ⟨r, hr, hpr⟩ := matchLoop_price _ _ _ clock 0 t ht
    rw [List.any_eq_true]
    exact ⟨r, hr, by simp [hpr]⟩
  · rw [execute_trades, List.all_eq_true]
    intro t ht
    obtain ⟨r, hr, hpr⟩ := matchLoop_price _ _ _ clock3 0 t ht
    rw [List.all_eq_true] at h6
    have h7 := h6 r hr
    simp only [bne_iff_ne, ne_eq] at h7 ⊢
    rw [hpr]
    exact h7
  · rw [matchLoop_step_head fuel2 hd2 tl2 o2 clock k2 h4 h5]
    rfl

theorem C3_maker_price_witness :
    (((execute_limit_order [⟨Side.Ask, 10, 10, 1⟩] [] ⟨Side.Bid, 4, 10, 2⟩ (fun _ => 7)).1.all
        fun t => (oppositeQueue [⟨Side.Ask, 10, 10, 1⟩] [] ⟨Side.Bid, 4, 10, 2⟩).any
          fun m => t.price == m.price) = true) ∧
    (((execute_limit_order [⟨Side.Ask, 5, 10, 1⟩] [] ⟨Side.Bid, 2, 7, 1⟩ (fun _ => 3)).1.all
        fun t => t.price != (⟨Side.Bid, 2, 7, 1⟩ : Order).price) = true) ∧
    ((matchLoop (0 + 1) (⟨Side.Ask, 3, 5, 1⟩ :: []) ⟨Side.Bid, 2, 6, 2⟩ (fun _ => 7) 0).1.head?.map
        Trade.price = some (⟨Side.Ask, 3, 5, 1⟩ : Order).price) :=
  C3_maker_price [⟨Side.Ask, 10, 10, 1⟩] [] ⟨Side.Bid, 4, 10, 2⟩ (fun _ => 7)
    [⟨Side.Ask, 5, 10, 1⟩] [] ⟨Side.Bid, 2, 7, 1⟩ (fun _ => 3)
    ⟨Side.Ask, 3, 5, 1⟩ [] ⟨Side.Bid, 2, 6, 2⟩ 0 0
    (by decide) (by decide) (by decide) (by decide) (by decide) (by decide)

/-- **C4**: eligibility rule.  A Limit incoming order is eligible against a
candidate iff (Bid and its price ≥ candidate's) or (Ask and its price ≤
candidate's); a Market incoming order is eligible against every candidate
whatever its price field holds; and `main.rs`'s strategy-less
`Order::matches` is exactly the Limit rule. -/
theorem C4_eligibility :
    (∀ (sd : Side) (am pr ts : Int) (cand : OrderS),
      OrderS.matchesS ⟨sd, am, pr, ts, Strategy.Limit⟩ cand = true ↔
        ((sd = Side.Bid ∧ cand.price ≤ pr) ∨ (sd = Side.Ask ∧ pr ≤ cand.price))) ∧
    (∀ (sd : Side) (am pr ts : Int) (cand : OrderS),
      OrderS.matchesS ⟨sd, am, pr, ts, Strategy.Market⟩ cand = true) ∧
    (∀ a b : Order, Order.matchesO a b = true ↔
      ((a.side = Side.Bid ∧ b.price ≤ a.price) ∨ (a.side = Side.Ask ∧ a.price ≤ b.price))) := by
  refine ⟨?_, ?_, ?_⟩
  · intro sd am pr ts cand
    simp [OrderS.matchesS, Strategy.matchesS]
  · intro sd am pr ts cand
    rfl
  · intro a b
    simp [Order.matchesO]

/-- **C5**: remainder resting policy.  After the call, the same-side queue
is (as a multiset) the initial same-side queue plus the incoming order with
its remaining amount exactly when that remainder is positive, and is
unchanged when the remainder is not positive; the opposite queue never
grows, so a fully filled incoming order is inserted into neither queue. -/
theorem C5_remainder_resting (asks bids : List Order) (o : Order) (clock : Nat → Nat) :
    (((if o.side = Side.Bid then (execute_limit_order asks bids o clock).2.2
       else (execute_limit_order asks bids o clock).2.1) : List Order) : Multiset Order) =
      (if 0 < (engineLoop asks bids o clock).2.2.amount
       then (engineLoop asks bids o clock).2.2 ::ₘ
         ((sameQueue asks bids o : List Order) : Multiset Order)
       else ((sameQueue asks bids o : List Order) : Multiset Order)) ∧
    (if o.side = Side.Bid then (execute_limit_order asks bids o clock).2.1
     else (execute_limit_order asks bids o clock).2.2).length ≤
      (oppositeQueue asks bids o).length := by
  have hsq : ∀ hs : o.side = Side.Bid, sameQueue asks bids o = bids := by
    intro hs; simp [sameQueue, hs]
  have hsq' : ∀ hs : ¬ o.side = Side.Bid, sameQueue asks bids o = asks := by
    intro hs; simp [sameQueue, hs]
  have hlen := matchLoop_length_le ((oppositeQueue asks bids o).length + 1)
    (oppositeQueue asks bids o) o clock 0
  rw [execute_eq]
  by_cases hs : o.side = Side.Bid
  · simp only [if_pos hs]
    refine ⟨?_, hlen⟩
    rw [hsq hs]
    by_cases hr : 0 < (engineLoop asks bids o clock).2.2.amount
    · simp only [if_pos hr]
      exact multiset_heapPush bids (engineLoop asks bids o clock).2.2
    · simp only [if_neg hr]
  · simp only [if_neg hs]
    refine ⟨?_, hlen⟩
    rw [hsq' hs]
    by_cases hr : 0 < (engineLoop asks bids o clock).2.2.amount
    · simp only [if_pos hr]
      exact multiset_heapPush asks (engineLoop asks bids o clock).2.2
    · simp only [if_neg hr]

/-- **C6**: positive-amount book invariant.  If every resting order has
positive amount and the incoming order has positive amount, then after
`execute_limit_order` every order remaining in either queue has positive
amount. -/
theorem C6_positive_book (asks bids : List Order) (o : Order) (clock : Nat → Nat)
    (h1 : allPosAmount asks = true) (h2 : allPosAmount bids = true) (h3 : 0 < o.amount) :
    allPosAmount (execute_limit_order asks bids o clock).2.1 = true ∧
      allPosAmount (execute_limit_order asks bids o clock).2.2 = true := by
  rw [allPosAmount_iff] at h1 h2
  have hother : ∀ r ∈ oppositeQueue asks bids o, 0 < r.amount := by
    unfold oppositeQueue; split
    · exact h1
    · exact h2
  have hloop : ∀ y ∈ (engineLoop asks bids o clock).2.1, 0 < y.amount :=
    matchLoop_posAmount _ _ _ clock 0 hother
  have hpushA : ∀ y ∈ (if 0 < (engineLoop asks bids o clock).2.2.amount
      then heapPush asks (engineLoop asks bids o clock).2.2 else asks), 0 < y.amount := by
    by_cases hr : 0 < (engineLoop asks bids o clock).2.2.amount
    · rw [if_pos hr]
      intro y hy
      rcases mem_heapPush hy with hcase | hcase
      · exact h1 y hcase
      · rw [hcase]; exact hr
    · rw [if_neg hr]; exact h1
  have hpushB : ∀ y ∈ (if 0 < (engineLoop asks bids o clock).2.2.amount
      then heapPush bids (engineLoop asks bids o clock).2.2 else bids), 0 < y.amount := by
    by_cases hr : 0 < (engineLoop asks bids o clock).2.2.amount
    · rw [if_pos hr]
      intro y hy
      rcases mem_heapPush hy with hcase | hcase
      · exact h2 y hcase
      · rw [hcase]; exact hr
    · rw [if_neg hr]; exact h2
  rw [execute_eq]
  by_cases hs : o.side = Side.Bid
  · simp only [if_pos hs]
    exact ⟨(allPosAmount_iff _).mpr hloop, (allPosAmount_iff _).mpr hpushB⟩
  · simp only [if_neg hs]
    exact ⟨(allPosAmount_iff _).mpr hpushA, (allPosAmount_iff _).mpr hloop⟩

theorem C6_positive_book_witness :
    allPosAmount (execute_limit_order [⟨Side.Ask, 10, 10, 1⟩] [] ⟨Side.Bid, 4, 10, 2⟩
      (fun _ => 7)).2.1 = true ∧
    allPosAmount (execute_limit_order [⟨Side.Ask, 10, 10, 1⟩] [] ⟨Side.Bid, 4, 10, 2⟩
      (fun _ => 7)).2.2 = true :=
  C6_positive_book [⟨Side.Ask, 10, 10, 1⟩] [] ⟨Side.Bid, 4, 10, 2⟩ (fun _ => 7)
    (by decide) (by decide) (by decide)

/-- **C7** (counterexample to the claim as stated): two runs of
`execute_limit_order` on the very same book and incoming order, differing
only in the wall clock (`SystemTime::now()`) readings, return trade
sequences that differ — in the `timestamp` field — so the result is *not*
identical in every field across runs. -/
theorem C7_timestamp_counterexample :
    (execute_limit_order [⟨Side.Ask, 10, 10, 1⟩] [] ⟨Side.Bid, 10, 10, 2⟩ (fun _ => 0)).1.map
        Trade.timestamp = [0] ∧
    (execute_limit_order [⟨Side.Ask, 10, 10, 1⟩] [] ⟨Side.Bid, 10, 10, 2⟩ (fun _ => 1)).1.map
        Trade.timestamp = [1] ∧
    (execute_limit_order [⟨Side.Ask, 10, 10, 1⟩] [] ⟨Side.Bid, 10, 10, 2⟩ (fun _ => 0)).1 ≠
      (execute_limit_order [⟨Side.Ask, 10, 10, 1⟩] [] ⟨Side.Bid, 10, 10, 2⟩ (fun _ => 1)).1 := by
  decide

/-- **C7** (amended): `execute_limit_order` is deterministic against a given
book state in everything except the trades' wall-clock timestamps: two runs
with the same incoming order and queues but arbitrary clock readings produce
identical final queues and pointwise identical trades in every field other
than `timestamp`. -/
theorem C7_deterministic_modulo_timestamp (asks bids : List Order) (o : Order)
    (c1 c2 : Nat → Nat) :
    (execute_limit_order asks bids o c1).2 = (execute_limit_order asks bids o c2).2 ∧
      List.Forall₂ tradeEqNoTs (execute_limit_order asks bids o c1).1
        (execute_limit_order asks bids o c2).1 := by
  obtain ⟨h2eq, hf2⟩ := matchLoop_clock ((oppositeQueue asks bids o).length + 1)
    (oppositeQueue asks bids o) o c1 c2 0 0
  have hE : (engineLoop asks bids o c1).2 = (engineLoop asks bids o c2).2 := h2eq
  have hT : List.Forall₂ tradeEqNoTs (engineLoop asks bids o c1).1
      (engineLoop asks bids o c2).1 := hf2
  rw [execute_eq, execute_eq]
  by_cases hs : o.side = Side.Bid
  · simp only [if_pos hs]
    refine ⟨?_, hT⟩
    rw [show (engineLoop asks bids o c1).2.1 = (engineLoop asks bids o c2).2.1 from
      by rw [hE]]
    rw [show (engineLoop asks bids o c1).2.2 = (engineLoop asks bids o c2).2.2 from
      by rw [hE]]
  · simp only [if_neg hs]
    refine ⟨?_, hT⟩
    rw [show (engineLoop asks bids o c1).2.1 = (engineLoop asks bids o c2).2.1 from
      by rw [hE]]
    rw [show (engineLoop asks bids o c1).2.2 = (engineLoop asks bids o c2).2.2 from
      by rw [hE]]

/-- **C8** (evidence of the code bug): on an out-of-range side code, an
out-of-range strategy code, or an unparsable integer token, `from_str`
panics (terminating the process) instead of returning the recoverable `Err`
the spec demands — no execution path of the source builds an `Err` value. -/
theorem C8_parse_panics :
    order_from_str "9 1 2 3 0" = ParseResult.panicked "Invalid side" ∧
      order_from_str "4 1 2 3 7" = ParseResult.panicked "Invalid strategy" ∧
      order_from_str "4 x 2 3 0" = ParseResult.panicked "could not parse input" ∧
      order_from_str "8 1 2 0 0" = ParseResult.ok ⟨Side.Bid, 1, 2, 0, Strategy.Limit⟩ := by
  decide

/-- **C9**: non-crossing no-op frame.  For an incoming order that cannot
cross any resting opposite order (a Bid priced strictly below every resting
ask, or an Ask priced strictly above every resting bid — all `main.rs`
orders match by the Limit rule), `execute_limit_order` returns no trades and
returns the opposite-side queue exactly as it was. -/
theorem C9_non_crossing_noop (asks bids : List Order) (o : Order) (clock : Nat → Nat)
    (h : cannotCross o (oppositeQueue asks bids o) = true) :
    (execute_limit_order asks bids o clock).1 = [] ∧
      (if o.side = Side.Bid then (execute_limit_order asks bids o clock).2.1
       else (execute_limit_order asks bids o clock).2.2) = oppositeQueue asks bids o := by
  have hn := engineLoop_noop asks bids o clock h
  rw [execute_eq]
  by_cases hs : o.side = Side.Bid
  · simp only [if_pos hs]
    constructor
    · rw [show (engineLoop asks bids o clock).1 = ([] : List Trade) from by rw [hn]]
    · rw [show (engineLoop asks bids o clock).2.1 = oppositeQueue asks bids o from
        by rw [hn]]
  · simp only [if_neg hs]
    constructor
    · rw [show (engineLoop asks bids o clock).1 = ([] : List Trade) from by rw [hn]]
    · rw [show (engineLoop asks bids o clock).2.1 = oppositeQueue asks bids o from
        by rw [hn]]

theorem C9_non_crossing_noop_witness :
    (execute_limit_order [⟨Side.Ask, 5, 10, 1⟩] [] ⟨Side.Bid, 5, 5, 2⟩ (fun _ => 0)).1 = [] ∧
      (if (⟨Side.Bid, 5, 5, 2⟩ : Order).side = Side.Bid
       then (execute_limit_order [⟨Side.Ask, 5, 10, 1⟩] [] ⟨Side.Bid, 5, 5, 2⟩
         (fun _ => 0)).2.1
       else (execute_limit_order [⟨Side.Ask, 5, 10, 1⟩] [] ⟨Side.Bid, 5, 5, 2⟩
         (fun _ => 0)).2.2) =
        oppositeQueue [⟨Side.Ask, 5, 10, 1⟩] [] ⟨Side.Bid, 5, 5, 2⟩ :=
  C9_non_crossing_noop [⟨Side.Ask, 5, 10, 1⟩] [] ⟨Side.Bid, 5, 5, 2⟩ (fun _ => 0) (by decide)

/-- **C10**: `PartialEq` on orders compares only `price` and `timestamp` —
side, amount (and, in the orders module, strategy) are ignored, so orders
differing only in side or amount compare equal — and this equality is not
consistent with the side-dependent `Ord`: two orders that compare equal
under `PartialEq` compare `gt` under `cmp`. -/
theorem C10_order_equality :
    (∀ a b : Order, Order.beqO a b = true ↔ a.price = b.price ∧ a.timestamp = b.timestamp) ∧
    (∀ a b : OrderS, OrderS.beqS a b = true ↔ a.price = b.price ∧ a.timestamp = b.timestamp) ∧
    (Order.beqO ⟨Side.Ask, 1, 10, 1⟩ ⟨Side.Bid, 2, 10, 1⟩ = true ∧
      (⟨Side.Ask, 1, 10, 1⟩ : Order).side ≠ (⟨Side.Bid, 2, 10, 1⟩ : Order).side ∧
      (⟨Side.Ask, 1, 10, 1⟩ : Order).amount ≠ (⟨Side.Bid, 2, 10, 1⟩ : Order).amount ∧
      Order.cmp ⟨Side.Ask, 1, 10, 1⟩ ⟨Side.Bid, 2, 10, 1⟩ = Ordering.gt) ∧
    OrderS.beqS ⟨Side.Ask, 1, 10, 1, Strategy.Limit⟩ ⟨Side.Ask, 1, 10, 1, Strategy.Market⟩
      = true := by
  refine ⟨?_, ?_, by decide, by decide⟩
  · intro a b
    simp [Order.beqO]
  · intro a b
    simp [OrderS.beqS]
